import Mathlib

/-!
Verification development for the datetimecalc repository.

Shallow embedding of the core of `datetimecalc` (files
`functions.py`, `tz.py`, `timedelta.py`) into Lean 4, together with
theorems settling the specification claims.

Modelling conventions:
* strings are `List Char` (with `String.data` at the boundary);
* Python `datetime` values are rationals (microseconds on a time line),
  `timedelta` values are rationals (microseconds), `tzinfo` values are the
  inductive `TzV`;
* numeric literals parsed out of text are embedded exactly as rationals;
  Python stores them as IEEE floats and rounds timedeltas to whole
  microseconds, which we do not model (all inputs in this file are exact
  in both representations);
* the process environment (timezone database, local timezone names, the
  TZ variable, the current locale, the external `parsedatetime` engine)
  is passed explicitly as parameters, since the source reads it
  dynamically;
* fallible Python code (raising ValueError and friends) is embedded with
  `Option`/`Except`.
-/

/-! ## Character classes (Python `re` semantics, ASCII range)

Python regexes in the source operate on texts that are ASCII for every
construct the claims exercise; `\s`, `\w`, `\d` are embedded on the
ASCII range. -/

def isPySpace (c : Char) : Bool :=
  c = ' ' || c = '\t' || c = '\n' || c = '\r' || c = '\x0b' || c = '\x0c'

def isWordChar (c : Char) : Bool :=
  c.isAlphanum || c = '_'

def strOf (s : String) : List Char := s.data

/-! ## Duration parser (`functions.parse_timedelta_str`)

The source matches the whole input against one compiled pattern:

  `^\s*(\s*\b((?P<years>N)\s*y(ears?)?|...|(?P<milliseconds>N)\s*(ms|...))[\s,]*\b)+\s*$`

with `N = \d+(\.\d+)?`.  We embed it as a backtracking matcher that
follows the regex engine's strategy: alternatives are tried in pattern
order, quantifiers greedily, and failure of the continuation backtracks
into earlier choices.  The matcher returns the sequence of `(unit,
number)` fields in match order; Python's `groupdict` then keeps, for
each named group, only the LAST occurrence, which `tdFromCaptures`
reproduces. -/

inductive TUnit
  | years | months | weeks | days | hours | minutes | seconds
  | microseconds | milliseconds
  deriving DecidableEq, Repr, Fintype

abbrev Fld := TUnit × ℚ

def digitVal (c : Char) : ℕ := c.toNat - 48

def natOfDigits (ds : List Char) : ℕ :=
  ds.foldl (fun acc c => acc * 10 + digitVal c) 0

def fracOfDigits (ds : List Char) : ℚ :=
  (natOfDigits ds : ℚ) / ((10 : ℚ) ^ ds.length)

/-- `\d+(\.\d+)?` — greedy and in effect deterministic, because no unit
keyword begins with a digit or a dot, so shorter matches never let the
continuation succeed. -/
def parseNumber (cs : List Char) : Option (ℚ × List Char) :=
  let p := cs.span Char.isDigit
  if p.1.isEmpty then none
  else
    match p.2 with
    | c :: r2 =>
      if c = '.' then
        let q := r2.span Char.isDigit
        if q.1.isEmpty then some ((natOfDigits p.1 : ℚ), p.2)
        else some ((natOfDigits p.1 : ℚ) + fracOfDigits q.1, q.2)
      else some ((natOfDigits p.1 : ℚ), p.2)
    | [] => some ((natOfDigits p.1 : ℚ), p.2)

/-- The unit-keyword alternation of the source pattern, with each
unit's keyword variants listed in the order the regex engine tries
them (greedy optional groups first, alternations left to right).
The source file's micro-sign keyword is the UTF-8 string μs. -/
def unitAlts : List (TUnit × List (List Char)) :=
  [ (.years,        [strOf "years", strOf "year", strOf "y"]),
    (.months,       [strOf "months", strOf "month", strOf "mon", strOf "mo"]),
    (.weeks,        [strOf "weeks", strOf "week", strOf "wks", strOf "wk", strOf "w"]),
    (.days,         [strOf "days", strOf "day", strOf "d"]),
    (.hours,        [strOf "hrs", strOf "hr", strOf "hours", strOf "hour", strOf "h"]),
    (.minutes,      [strOf "minutes", strOf "minute", strOf "mins", strOf "min", strOf "m"]),
    (.seconds,      [strOf "seconds", strOf "second", strOf "secs", strOf "sec", strOf "s"]),
    (.microseconds, [strOf "μs", strOf "us", strOf "microseconds", strOf "microsecond",
                     strOf "microsecs", strOf "microsec"]),
    (.milliseconds, [strOf "ms", strOf "msec", strOf "milliseconds", strOf "millisecond",
                     strOf "millisecs", strOf "millisec"]) ]

def wordOpt : Option Char → Bool
  | some c => isWordChar c
  | none => false

def isSepChar (c : Char) : Bool := isPySpace c || c = ','

/-- Strip an expected literal keyword from the front of the input. -/
def stripPre : List Char → List Char → Option (List Char)
  | [], cs => some cs
  | _ :: _, [] => none
  | k :: ks, c :: cs => if c = k then stripPre ks cs else none

/-- After a field's trailing `[\s,]*\b`: the word boundary, then either
another field (`k`, the continuation for the remaining `(...)+`
iterations) or the closing `\s*$`.  The `+` quantifier is greedy, so the
continuation is tried before closing. -/
def headWord (l : List Char) : Bool :=
  match l.head? with
  | some c => isWordChar c
  | none => false

def tryBoundaryThen (k : Option Char → List Char → Option (List Fld))
    (prev : Option Char) (rest : List Char) : Option (List Fld) :=
  if (wordOpt prev != headWord rest) = true then
    match k prev rest with
    | some flds => some flds
    | none => if rest.all isPySpace then some [] else none
  else none

/-- `[\s,]*` is greedy: with `seps` the maximal separator run, try
consuming `j` characters of it, longest first. -/
def trySeps (k : Option Char → List Char → Option (List Fld)) (uLast : Char)
    (seps rest : List Char) : ℕ → Option (List Fld)
  | 0 => tryBoundaryThen k (some uLast) (seps ++ rest)
  | j + 1 =>
    (tryBoundaryThen k (some ((seps.take (j + 1)).getLastD uLast))
        (seps.drop (j + 1) ++ rest)) <|>
      trySeps k uLast seps rest j

/-- Try the keyword variants of one unit, in pattern order, with full
backtracking into the continuation. -/
def tryKws (k : Option Char → List Char → Option (List Fld)) (u : TUnit) (v : ℚ) :
    List (List Char) → List Char → Option (List Fld)
  | [], _ => none
  | kw :: kws, cs =>
    (match stripPre kw cs with
     | some cs2 =>
       match kw.getLast? with
       | some uLast =>
         let p := cs2.span isSepChar
         (trySeps k uLast p.1 p.2 p.1.length).map (fun flds => (u, v) :: flds)
       | none => none
     | none => none) <|>
      tryKws k u v kws cs

/-- Try the nine unit alternatives in pattern order. -/
def tryAlts (k : Option Char → List Char → Option (List Fld)) (v : ℚ) :
    List (TUnit × List (List Char)) → List Char → Option (List Fld)
  | [], _ => none
  | (u, kws) :: rest, cs => tryKws k u v kws cs <|> tryAlts k v rest cs

/-- One or more fields followed by `\s*$`, starting with the field's
`\s*\b` preamble.  `prev` is the character just before the current
position (for `\b`).  Fuel decreases with every field; each field
consumes at least its number, so `length + 1` fuel suffices. -/
def fieldPrev (prev : Option Char) (sp : List Char) : Option Char :=
  match sp.getLast? with
  | some c => some c
  | none => prev

def matchFields : ℕ → Option Char → List Char → Option (List Fld)
  | 0, _, _ => none
  | fuel + 1, prev, cs =>
    if (wordOpt (fieldPrev prev (cs.span isPySpace).1) !=
        headWord (cs.span isPySpace).2) = true then
      match parseNumber (cs.span isPySpace).2 with
      | some (v, cs2) => tryAlts (matchFields fuel) v unitAlts (cs2.span isPySpace).2
      | none => none
    else none

/-- The field sequence matched by the `parse_timedelta_str` pattern, or
`none` when the whole input fails to match (Python: ValueError). -/
def parseDurFields (cs : List Char) : Option (List Fld) :=
  matchFields (cs.length + 1) none cs

/-- Python `groupdict` semantics: a named group inside a repeated group
retains only its last captured occurrence; `fget` turns an absent group
into 0. -/
def lastVal (u : TUnit) (fs : List Fld) : ℚ :=
  match (fs.filter (fun p => decide (p.1 = u))).getLast? with
  | some p => p.2
  | none => 0

/-- The `timedelta(...)` call of the source, in microseconds:
`days = years*365 + months*30 + weeks*7 + days`, plus hours, minutes,
seconds, microseconds and milliseconds. -/
def tdFromCaptures (fs : List Fld) : ℚ :=
  (lastVal .years fs * 365 + lastVal .months fs * 30 + lastVal .weeks fs * 7 +
      lastVal .days fs) * 86400000000 +
    lastVal .hours fs * 3600000000 + lastVal .minutes fs * 60000000 +
    lastVal .seconds fs * 1000000 + lastVal .milliseconds fs * 1000 +
    lastVal .microseconds fs

def parse_timedelta_list (cs : List Char) : Option ℚ :=
  (parseDurFields cs).map tdFromCaptures

def parse_timedelta_str (s : String) : Option ℚ :=
  parse_timedelta_list s.data

/-! Spec-side weighted sum: each field contributes its amount times the
fixed unit length (year=365d, month=30d, week=7d), every occurrence
counted. -/

def unitWeight : TUnit → ℚ
  | .years => 365 * 86400000000
  | .months => 30 * 86400000000
  | .weeks => 7 * 86400000000
  | .days => 86400000000
  | .hours => 3600000000
  | .minutes => 60000000
  | .seconds => 1000000
  | .milliseconds => 1000
  | .microseconds => 1

def fieldsVal (fs : List Fld) : ℚ :=
  (fs.map (fun p => unitWeight p.1 * p.2)).sum

def allUnits : List TUnit :=
  [.years, .months, .weeks, .days, .hours, .minutes, .seconds,
   .microseconds, .milliseconds]

def sumVal (u : TUnit) (fs : List Fld) : ℚ :=
  ((fs.filter (fun p => decide (p.1 = u))).map (fun p => p.2)).sum

/-- Keep only the last occurrence of each unit (what `groupdict`
effectively retains). -/
def keepLast : List Fld → List Fld
  | [] => []
  | p :: rest =>
    (if rest.any (fun q => decide (q.1 = p.1)) then [] else [p]) ++ keepLast rest

/-! ## Timezone token scanner (`tz.py`)

The compiled pattern is `(?:OFFSET_REGEX|\b(name1|name2|...)\b)` where
`OFFSET_REGEX = (?:(?<=[\d\s])|^)([+-](?:0[0-9]|1[0-4]):(?:00|15|30|45))`
and the names are every IANA key, the `TZ_ADDITIONS` keys and the local
`time.tzname` strings, sorted.  The name list depends on the system
timezone database, so it is a parameter (`zonesAlt`), already in the
pattern's order. -/

def charAt (s : List Char) (i : ℕ) : Option Char := s[i]?

def wordAt (s : List Char) (i : ℕ) : Bool :=
  match charAt s i with
  | some c => isWordChar c
  | none => false

def wordBefore (s : List Char) (i : ℕ) : Bool :=
  match i with
  | 0 => false
  | j + 1 => wordAt s j

/-- Python regex `\b` at position `i`. -/
def boundaryAt (s : List Char) (i : ℕ) : Bool := wordBefore s i != wordAt s i

/-- The character at position `i` exists and satisfies `p`. -/
def charIs (s : List Char) (i : ℕ) (p : Char → Bool) : Bool :=
  match charAt s i with
  | some c => p c
  | none => false

/-- The lookbehind of OFFSET_REGEX: start of string, or a digit or
whitespace character just before the sign. -/
def offsetLookbehind (s : List Char) (i : ℕ) : Bool :=
  match i with
  | 0 => true
  | j + 1 =>
    match charAt s j with
    | some c => c.isDigit || isPySpace c
    | none => false

/-- `0[0-9]|1[0-4]` at positions `i`, `i+1`: the hour part of
OFFSET_REGEX, bounded by 14 for BOTH signs. -/
def hourAt (s : List Char) (i : ℕ) : Bool :=
  (charIs s i (fun c => c = '0') && charIs s (i + 1) Char.isDigit) ||
    (charIs s i (fun c => c = '1') && charIs s (i + 1) (fun c => '0' ≤ c && c ≤ '4'))

/-- `00|15|30|45` at positions `i`, `i+1`: the minute part of
OFFSET_REGEX. -/
def minAt (s : List Char) (i : ℕ) : Bool :=
  (charIs s i (fun c => c = '0') && charIs s (i + 1) (fun c => c = '0')) ||
    (charIs s i (fun c => c = '1') && charIs s (i + 1) (fun c => c = '5')) ||
    (charIs s i (fun c => c = '3') && charIs s (i + 1) (fun c => c = '0')) ||
    (charIs s i (fun c => c = '4') && charIs s (i + 1) (fun c => c = '5'))

/-- OFFSET_REGEX match at position `i` (the token is 6 characters). -/
def offsetAt (s : List Char) (i : ℕ) : Bool :=
  offsetLookbehind s i && charIs s i (fun c => c = '+' || c = '-') &&
    hourAt s (i + 1) && charIs s (i + 3) (fun c => c = ':') && minAt s (i + 4)

def subEqAt (s : List Char) (i : ℕ) (z : List Char) : Bool :=
  decide ((s.drop i).take z.length = z)

/-- A name alternative of `\b(...)\b` matching at position `i`. -/
def nameMatchAt (s : List Char) (i : ℕ) (z : List Char) : Bool :=
  boundaryAt s i && subEqAt s i z && boundaryAt s (i + z.length)

inductive Tok
  | off (t : List Char)
  | nm (t : List Char)
  deriving DecidableEq, Repr

def tokText : Tok → List Char
  | .off t => t
  | .nm t => t

def tokLen (t : Tok) : ℕ := (tokText t).length

/-- The whole alternation at position `i`: the offset alternative
first, then the name alternatives in list order. -/
def matchAt (zones : List (List Char)) (s : List Char) (i : ℕ) : Option Tok :=
  if offsetAt s i then some (.off ((s.drop i).take 6))
  else
    match zones.find? (fun z => nameMatchAt s i z) with
    | some z => some (.nm z)
    | none => none

/-- Leftmost-match scan: the first position whose `matchAt` succeeds. -/
def scanFrom (f : ℕ → Option Tok) : ℕ → ℕ → Option (ℕ × Tok)
  | _, 0 => none
  | i, fuel + 1 =>
    match f i with
    | some t => some (i, t)
    | none => scanFrom f (i + 1) fuel

def findMatch (zones : List (List Char)) (s : List Char) : Option (ℕ × Tok) :=
  scanFrom (matchAt zones s) 0 (s.length + 1)

/-- `re.fullmatch` with the same pattern: the whole input must be
consumed by a single token; the offset alternative is tried first. -/
def fullMatchTz (zones : List (List Char)) (s : List Char) : Option (ℕ × Tok) :=
  if offsetAt s 0 && decide (s.length = 6) then some (0, .off s)
  else
    match zones.find? (fun z => decide (z = s) && boundaryAt s 0 &&
        boundaryAt s s.length) with
    | some z => some (0, .nm z)
    | none => none

/-- `tz.delspan`: deletes a span, concatenating prefix and suffix. -/
def delspan (s : List Char) (b e : ℕ) : List Char := s.take b ++ s.drop e

def digit2 (a b : Char) : Option ℕ :=
  if a.isDigit && b.isDigit then some (10 * digitVal a + digitVal b) else none

/-- `tz.offset_timezone`, in whole seconds east of UTC.  `none` embeds
every raised error: the format sanity check, a missing colon, a
non-numeric `int()` argument, and `datetime.timezone` rejecting offsets
of 24 hours or more. -/
def offset_timezone (spec : List Char) : Option ℤ :=
  match spec with
  | [c0, c1, c2, c3, c4, c5] =>
    if (c0 = '+' || c0 = '-') &&
        decide (List.findIdx? (fun c => c = ':') [c0, c1, c2, c3, c4, c5] = some 3) then
      match digit2 c1 c2, digit2 c4 c5 with
      | some h, some m =>
        if -1440 < (if c0 = '-' then -((h : ℤ) * 60 + m) else (h : ℤ) * 60 + m) &&
            (if c0 = '-' then -((h : ℤ) * 60 + m) else (h : ℤ) * 60 + m) < 1440 then
          some ((if c0 = '-' then -((h : ℤ) * 60 + m) else (h : ℤ) * 60 + m) * 60)
        else none
      | _, _ => none
    else none
  | _ => none

/-- A resolved timezone value: a fixed UTC offset
(`datetime.timezone(timedelta(...))`) or a named zone
(`zoneinfo.ZoneInfo(key)`). -/
inductive TzV
  | fixedOffset (sec : ℤ)
  | zoneInfo (key : List Char)
  deriving DecidableEq, Repr

/-- The process environment the scanner and evaluator read dynamically:
the compiled name alternation, the zoneinfo database keys, the local
`time.tzname` pair, the TZ variable, the current local UTC offset value
(the raw `time.altzone`/`time.timezone` number the source selects), and
the evaluator's two tzinfo operations (`utcoffset` and `astimezone` at
a moment), abstract because they consult the zone database.
`tzEnvValid` records the assumption that a set TZ variable names a real
zone (otherwise the source dies with an uncaught ZoneInfoNotFoundError
before reaching any behaviour the claims describe); `zonesNonempty`
records that the alternation is built from nonempty names. -/
structure TzEnv where
  zonesAlt : List (List Char)
  dbZones : List (List Char)
  localNames : List (List Char)
  tzEnvVar : Option (List Char)
  localOffsetSec : ℤ
  utcofs : TzV → ℚ → ℚ
  astz : ℚ → TzV → ℚ
  tzEnvValid : ∀ t, tzEnvVar = some t → t ∈ dbZones
  zonesNonempty : ∀ z ∈ zonesAlt, z ≠ []

/-- `tz.TZ_ADDITIONS`. -/
def tzAdditions : List (List Char × List Char) :=
  [ (strOf "CEST", strOf "Europe/Paris"),
    (strOf "EEST", strOf "Europe/Athens"),
    (strOf "WEST", strOf "Europe/Lisbon"),
    (strOf "EDT", strOf "America/New_York"),
    (strOf "HDT", strOf "Pacific/Honolulu"),
    (strOf "MDT", strOf "America/Denver"),
    (strOf "BST", strOf "Europe/London"),
    (strOf "MEST", strOf "Europe/Berlin"),
    (strOf "NZDT", strOf "Pacific/Auckland") ]

def lookupAdd (n : List Char) : Option (List Char) :=
  (tzAdditions.find? (fun p => decide (p.1 = n))).map (fun p => p.2)

/-- The resolution chain of `tz.search_tz` for a matched token text:
as an offset, as a literal zoneinfo key, as a local abbreviation (TZ
variable override, else a fixed offset from the current local UTC
offset), and finally through TZ_ADDITIONS. -/
def resolveTok (env : TzEnv) (name : List Char) : Option TzV :=
  match offset_timezone name with
  | some sec => some (.fixedOffset sec)
  | none =>
    if name ∈ env.dbZones then some (.zoneInfo name)
    else if name ∈ env.localNames then
      match env.tzEnvVar with
      | some t => some (.zoneInfo t)
      | none => some (.fixedOffset env.localOffsetSec)
    else
      match lookupAdd name with
      | some canon => if canon ∈ env.dbZones then some (.zoneInfo canon) else none
      | none => none

/-- `tz.search_tz`: scan (or full-match), resolve the matched token,
and return the resolved timezone together with the input with the
matched span deleted; `none` is the source's `(None, None)`. -/
def search_tz (env : TzEnv) (input : List Char) (fullmatch : Bool) :
    Option (TzV × List Char) :=
  match (if fullmatch then fullMatchTz env.zonesAlt input
         else findMatch env.zonesAlt input) with
  | none => none
  | some (b, tok) =>
    (resolveTok env (tokText tok)).map
      (fun tz => (tz, delspan input b (b + tokLen tok)))

/-- A minimal concrete environment: empty name alternation and zone
database, no local names, no TZ variable. -/
def env0 : TzEnv where
  zonesAlt := []
  dbZones := []
  localNames := []
  tzEnvVar := none
  localOffsetSec := 0
  utcofs := fun _ _ => 0
  astz := fun d _ => d
  tzEnvValid := by
    intro t h
    cases h
  zonesNonempty := by
    intro z hz
    cases hz

def digitChar (n : ℕ) : Char := Char.ofNat (48 + n)

/-- The canonical text of a UTC offset: sign, two-digit hour, colon,
two-digit minute. -/
def renderOffset (neg : Bool) (h m : ℕ) : List Char :=
  [if neg then '-' else '+', digitChar (h / 10), digitChar (h % 10), ':',
   digitChar (m / 10), digitChar (m % 10)]

/-- The offset, in seconds, the spec assigns to a rendered token:
sign times (60*HH + MM) minutes. -/
def offsetSecVal (neg : Bool) (h m : ℕ) : ℤ :=
  (if neg then -((h : ℤ) * 60 + m) else (h : ℤ) * 60 + m) * 60

/-- The number of positions at which the timezone pattern matches (to
state that an input contains exactly one timezone token). -/
def matchCount (zones : List (List Char)) (s : List Char) : ℕ :=
  (List.range (s.length + 1)).countP (fun i => (matchAt zones s i).isSome)

/-! ## Term resolution (`functions.py`) -/

inductive TObj
  | dtv (v : ℚ)
  | tdv (v : ℚ)
  | tzv (z : TzV)
  deriving DecidableEq, Repr

/-- The external natural-language engine (`parsedatetime.Calendar
.parseDT`): given the text and an optional timezone hint, a parsed
moment plus the context's accuracy.  Accuracy 0 is the engine's
recognized-nothing outcome; in VERSION_CONTEXT_STYLE the context's
truthiness is derived from it, so the source's `not parse_status or
parse_status.accuracy == 0` test is `accuracy = 0`. -/
abbrev Engine := List Char → Option TzV → (ℚ × ℕ)

/-- `functions.parse_timezone_str`: full-string timezone match, or
ValueError (`none`). -/
def parse_timezone_str (env : TzEnv) (s : List Char) : Option TzV :=
  (search_tz env s true).map (fun p => p.1)

/-- The text handed to the external engine by `parse_datetime_str`:
the scan remainder when a timezone was recognized, the raw input
otherwise. -/
def dtInput (env : TzEnv) (s : List Char) : List Char :=
  match search_tz env s false with
  | some (_, f) => f
  | none => s

/-- The timezone hint handed to the external engine. -/
def dtHint (env : TzEnv) (s : List Char) : Option TzV :=
  (search_tz env s false).map (fun p => p.1)

/-- `functions.parse_datetime_str`: scan out a timezone, call the
engine on the remainder with the hint, and fail on zero accuracy. -/
def parse_datetime_str (eng : Engine) (env : TzEnv) (s : List Char) : Option ℚ :=
  if (eng (dtInput env s) (dtHint env s)).2 = 0 then none
  else some (eng (dtInput env s) (dtHint env s)).1

/-- `functions.parse_temporal_str`: try the input as a timezone, then
as a duration, then as an absolute time, returning the first success;
each ValueError is caught and the next strategy tried. -/
def parse_temporal_str (eng : Engine) (env : TzEnv) (s : List Char) : Option TObj :=
  match parse_timezone_str env s with
  | some z => some (.tzv z)
  | none =>
    match parse_timedelta_list s with
    | some d => some (.tdv d)
    | none => (parse_datetime_str eng env s).map .dtv

/-! ## Expression evaluator (`functions.parse_temporal_expr`) -/

inductive Op
  | add | sub | lt | le | gt | ge | eq | ne | atOp
  deriving DecidableEq, Repr

def opStr : Op → List Char
  | .add => strOf "+"
  | .sub => strOf "-"
  | .lt => strOf "<"
  | .le => strOf "<="
  | .gt => strOf ">"
  | .ge => strOf ">="
  | .eq => strOf "=="
  | .ne => strOf "!="
  | .atOp => strOf "@"

/-- `type(x).__name__`, used in the unsupported-operation message. -/
def typeName : TObj → List Char
  | .dtv _ => strOf "datetime"
  | .tdv _ => strOf "timedelta"
  | .tzv (.fixedOffset _) => strOf "timezone"
  | .tzv (.zoneInfo _) => strOf "ZoneInfo"

inductive EvalOut
  | obj (o : TObj)
  | bl (b : Bool)
  | unsupported (a : List Char) (op : List Char) (b : List Char)
  | attrError
  | unresolved (t : List Char)
  | generalError
  deriving DecidableEq, Repr

/-- The dispatch chain of `parse_temporal_expr` (its if/elif ladder):

* datetime op timedelta: `+`/`-` only, else fall through to the
  unsupported-operation ValueError;
* datetime op datetime: `-` and the six comparisons (mixed
  naive/aware comparison raises in Python, but those triples are in the
  legal table and outside the claims; values here are plain moments);
* datetime `@` tzinfo: `astimezone`;
* timedelta op timedelta: the source applies `op_func` for EVERY
  operator with no membership guard, so `@` applies the
  `dt.astimezone(tz)` lambda to a timedelta, raising AttributeError
  (`attrError`) rather than the unsupported-operation ValueError;
* tzinfo op tzinfo: `-` and comparisons on
  `utcoffset(datetime.utcnow())`;
* everything else: the unsupported-operation ValueError naming both
  type names and the operator. -/
def applyOp (env : TzEnv) (now : ℚ) (a : TObj) (op : Op) (b : TObj) : EvalOut :=
  match a, b with
  | .dtv x, .tdv y =>
    match op with
    | .add => .obj (.dtv (x + y))
    | .sub => .obj (.dtv (x - y))
    | _ => .unsupported (typeName a) (opStr op) (typeName b)
  | .dtv x, .dtv y =>
    match op with
    | .sub => .obj (.tdv (x - y))
    | .lt => .bl (decide (x < y))
    | .le => .bl (decide (x ≤ y))
    | .gt => .bl (decide (y < x))
    | .ge => .bl (decide (y ≤ x))
    | .eq => .bl (decide (x = y))
    | .ne => .bl (decide (x ≠ y))
    | _ => .unsupported (typeName a) (opStr op) (typeName b)
  | .dtv x, .tzv z =>
    match op with
    | .atOp => .obj (.dtv (env.astz x z))
    | _ => .unsupported (typeName a) (opStr op) (typeName b)
  | .tdv x, .tdv y =>
    match op with
    | .add => .obj (.tdv (x + y))
    | .sub => .obj (.tdv (x - y))
    | .lt => .bl (decide (x < y))
    | .le => .bl (decide (x ≤ y))
    | .gt => .bl (decide (y < x))
    | .ge => .bl (decide (y ≤ x))
    | .eq => .bl (decide (x = y))
    | .ne => .bl (decide (x ≠ y))
    | .atOp => .attrError
  | .tzv x, .tzv y =>
    match op with
    | .sub => .obj (.tdv (env.utcofs x now - env.utcofs y now))
    | .lt => .bl (decide (env.utcofs x now < env.utcofs y now))
    | .le => .bl (decide (env.utcofs x now ≤ env.utcofs y now))
    | .gt => .bl (decide (env.utcofs y now < env.utcofs x now))
    | .ge => .bl (decide (env.utcofs y now ≤ env.utcofs x now))
    | .eq => .bl (decide (env.utcofs x now = env.utcofs y now))
    | .ne => .bl (decide (env.utcofs x now ≠ env.utcofs y now))
    | _ => .unsupported (typeName a) (opStr op) (typeName b)
  | _, _ => .unsupported (typeName a) (opStr op) (typeName b)

/-- The operator alternation `\+|\-|<|<=|>|>=|==|\!=|@` in pattern
order (backtracking makes `<=` reachable after `<` fails to be
followed by whitespace, and likewise `>=`). -/
def opToks : List (List Char × Op) :=
  [ (strOf "+", .add), (strOf "-", .sub), (strOf "<", .lt), (strOf "<=", .le),
    (strOf ">", .gt), (strOf ">=", .ge), (strOf "==", .eq), (strOf "!=", .ne),
    (strOf "@", .atOp) ]

def stripEndSpaces (l : List Char) : List Char :=
  (l.reverse.dropWhile isPySpace).reverse

/-- After the candidate left operand and its `\s+`: one operator
alternative in pattern order, `\s+`, then the lazy right operand
`(?P<b>.+?)\s*$` — the rest minus trailing whitespace, which must be
nonempty and newline-free (`.` does not match newlines). -/
def opAfter : List (List Char × Op) → List Char → Option (Op × List Char)
  | [], _ => none
  | (tokc, op) :: rest, cs =>
    (match stripPre tokc cs with
     | some cs2 =>
       if (cs2.takeWhile isPySpace).isEmpty then none
       else
         match stripEndSpaces (cs2.dropWhile isPySpace) with
         | [] => none
         | bterm =>
           if bterm.any (fun c => c = '\n') then none else some (op, bterm)
     | none => none) <|>
      opAfter rest cs

/-- The lazy-left-operand scan of the `time_op` pattern: try the
shortest `a` first, extending one character at a time; a newline in
`a` aborts (the dot of `.+?` does not match it). -/
def splitFrom (a rest : List Char) : Option (List Char × Op × List Char) :=
  match rest with
  | [] => none
  | c :: rest2 =>
    if c = '\n' then none
    else
      (if (rest2.takeWhile isPySpace).isEmpty then none
       else (opAfter opToks (rest2.dropWhile isPySpace)).map
         (fun p => (a ++ [c], p.1, p.2))) <|>
        splitFrom (a ++ [c]) rest2

/-- The `time_op` split.  The leading `\s*` is taken greedily; regex
backtracking into it only prepends whitespace to the left operand,
which the caller strips, so the greedy choice is equivalent. -/
def splitExpr (s : List Char) : Option (List Char × Op × List Char) :=
  splitFrom [] (s.dropWhile isPySpace)

/-- Python `str.strip()` (whitespace). -/
def pyStrip (l : List Char) : List Char := stripEndSpaces (l.dropWhile isPySpace)

/-- `functions.parse_temporal_expr`: split on the operator (or resolve
the whole text as a single term), resolve both sides, dispatch. -/
def parse_temporal_expr (eng : Engine) (env : TzEnv) (now : ℚ) (s : List Char) :
    EvalOut :=
  match splitExpr s with
  | none =>
    match parse_temporal_str eng env s with
    | some o => .obj o
    | none => .generalError
  | some (a, op, b) =>
    match parse_temporal_str eng env (pyStrip a) with
    | none => .unresolved (pyStrip a)
    | some ta =>
      match parse_temporal_str eng env (pyStrip b) with
      | none => .unresolved (pyStrip b)
      | some tb => applyOp env now ta op tb

/-- A trivial concrete engine that recognizes nothing. -/
def eng0 : Engine := fun _ _ => (0, 0)

/-! ## Duration formatting (`timedelta.py`) -/

/-- The unit table of `TDC.extract_components` (lengths in seconds, in
loop order). -/
def tdcUnits : List (String × ℚ) :=
  [("year", 31536000), ("month", 2592000), ("week", 604800), ("day", 86400),
   ("hour", 3600), ("minute", 60), ("second", 1),
   ("millisecond", 1 / 1000), ("microsecond", 1 / 1000000)]

/-- The greedy residue loop of `extract_components` (Python `//` on
non-negative values is the floor). -/
def extractLoop : List (String × ℚ) → ℚ → List (String × ℤ)
  | [], _ => []
  | (u, len) :: rest, tot =>
    (u, Int.floor (tot / len)) ::
      extractLoop rest (tot - (Int.floor (tot / len) : ℚ) * len)

/-- `TDC.extract_components` for a timedelta of `td` microseconds
(`total_seconds`, sign split, greedy decomposition, sign
reapplied). -/
def extract_components (td : ℚ) : List (String × ℤ) :=
  (extractLoop tdcUnits |td / 1000000|).map
    (fun p => (p.1, (if td / 1000000 < 0 then (-1 : ℤ) else 1) * p.2))

/-- `TDC.__getitem__`. -/
def tdcGet (l : List (String × ℤ)) (k : String) : ℤ :=
  match l.find? (fun p => decide (p.1 = k)) with
  | some p => p.2
  | none => 0

/-- `TDC.keys` — the display order; note microsecond comes BEFORE
millisecond, as in the source. -/
def tdcKeys : List String :=
  ["year", "month", "week", "day", "hour", "minute", "second",
   "microsecond", "millisecond"]

def LABELS_EN : String → String × String
  | "year" => ("year", "years")
  | "month" => ("month", "months")
  | "week" => ("week", "weeks")
  | "day" => ("day", "days")
  | "hour" => ("hour", "hours")
  | "minute" => ("minute", "minutes")
  | "second" => ("second", "seconds")
  | "millisecond" => ("millisecond", "milliseconds")
  | "microsecond" => ("microsecond", "microseconds")
  | _ => ("", "")

def LABELS_ES : String → String × String
  | "year" => ("año", "años")
  | "month" => ("mes", "meses")
  | "week" => ("semana", "semanas")
  | "day" => ("día", "días")
  | "hour" => ("hora", "horas")
  | "minute" => ("minuto", "minutos")
  | "second" => ("segundo", "segundos")
  | "millisecond" => ("milisegundo", "milisegundos")
  | "microsecond" => ("microsegundo", "microsegundos")
  | _ => ("", "")

def LABELS_HI : String → String × String
  | "year" => ("वर्ष", "वर्ष")
  | "month" => ("महीना", "महीने")
  | "week" => ("सप्ताह", "सप्ताह")
  | "day" => ("दिन", "दिन")
  | "hour" => ("घंटा", "घंटे")
  | "minute" => ("मिनट", "मिनट")
  | "second" => ("सेकंड", "सेकंड")
  | "millisecond" => ("मिलीसेकंड", "मिलीसेकंड")
  | "microsecond" => ("माइक्रोसेकंड", "माइक्रोसेकंड")
  | _ => ("", "")

def LABELS_BN : String → String × String
  | "year" => ("বছর", "বছর")
  | "month" => ("মাস", "মাস")
  | "week" => ("সপ্তাহ", "সপ্তাহ")
  | "day" => ("দিন", "দিন")
  | "hour" => ("ঘণ্টা", "ঘণ্টা")
  | "minute" => ("মিনিট", "মিনিট")
  | "second" => ("সেকেন্ড", "সেকেন্ড")
  | "millisecond" => ("মিলিসেকেন্ড", "মিলিসেকেন্ড")
  | "microsecond" => ("মাইক্রোসেকেন্ড", "মাইক্রোসেকেন্ড")
  | _ => ("", "")

def LABELS_PT : String → String × String
  | "year" => ("ano", "anos")
  | "month" => ("mês", "meses")
  | "week" => ("semana", "semanas")
  | "day" => ("dia", "dias")
  | "hour" => ("hora", "horas")
  | "minute" => ("minuto", "minutos")
  | "second" => ("segundo", "segundos")
  | "millisecond" => ("milissegundo", "milissegundos")
  | "microsecond" => ("microssegundo", "microssegundos")
  | _ => ("", "")

def LABELS_TR : String → String × String
  | "year" => ("yıl", "yıl")
  | "month" => ("ay", "ay")
  | "week" => ("hafta", "hafta")
  | "day" => ("gün", "gün")
  | "hour" => ("saat", "saat")
  | "minute" => ("dakika", "dakika")
  | "second" => ("saniye", "saniye")
  | "millisecond" => ("milisaniye", "milisaniyeler")
  | "microsecond" => ("mikrosaniye", "mikrosaniyeler")
  | _ => ("", "")

def LABELS_ZH : String → String
  | "year" => "年"
  | "month" => "个月"
  | "week" => "周"
  | "day" => "天"
  | "hour" => "小时"
  | "minute" => "分钟"
  | "second" => "秒"
  | "millisecond" => "毫秒"
  | "microsecond" => "微秒"
  | _ => ""

def LABELS_JA : String → String
  | "year" => "年"
  | "month" => "ヶ月"
  | "week" => "週間"
  | "day" => "日"
  | "hour" => "時間"
  | "minute" => "分"
  | "second" => "秒"
  | "millisecond" => "ミリ秒"
  | "microsecond" => "マイクロ秒"
  | _ => ""

def LABELS_VI : String → String
  | "year" => "năm"
  | "month" => "tháng"
  | "week" => "tuần"
  | "day" => "ngày"
  | "hour" => "giờ"
  | "minute" => "phút"
  | "second" => "giây"
  | "millisecond" => "mili giây"
  | "microsecond" => "micro giây"
  | _ => ""

def LABELS_MR : String → String
  | "year" => "वर्ष"
  | "month" => "महिने"
  | "week" => "आठवडे"
  | "day" => "दिवस"
  | "hour" => "तास"
  | "minute" => "मिनिटे"
  | "second" => "सेकंद"
  | "millisecond" => "मिलीसेकंद"
  | "microsecond" => "मायक्रोसेकंद"
  | _ => ""

def LABELS_RU : String → String × String × String
  | "year" => ("год", "года", "лет")
  | "month" => ("месяц", "месяца", "месяцев")
  | "week" => ("неделя", "недели", "недель")
  | "day" => ("день", "дня", "дней")
  | "hour" => ("час", "часа", "часов")
  | "minute" => ("минута", "минуты", "минут")
  | "second" => ("секунда", "секунды", "секунд")
  | "millisecond" => ("миллисекунда", "миллисекунды", "миллисекунд")
  | "microsecond" => ("микросекунда", "микросекунды", "микросекунд")
  | _ => ("", "", "")

/-- `TDC.labeled_values` followed by the standard join. -/
def format_standard (comp : List (String × ℤ)) (labels : String → String × String) :
    String :=
  String.intercalate ", "
    ((tdcKeys.filter (fun k => decide (tdcGet comp k ≠ 0))).map
      (fun k => toString (tdcGet comp k) ++ " " ++
        (if (tdcGet comp k).natAbs = 1 then (labels k).1 else (labels k).2)))

def format_no_space (comp : List (String × ℤ)) (labels : String → String)
    (sep : String) : String :=
  String.intercalate sep
    ((tdcKeys.filter (fun k => decide (tdcGet comp k ≠ 0))).map
      (fun k => toString (tdcGet comp k) ++ labels k))

def format_with_space (comp : List (String × ℤ)) (labels : String → String) :
    String :=
  String.intercalate ", "
    ((tdcKeys.filter (fun k => decide (tdcGet comp k ≠ 0))).map
      (fun k => toString (tdcGet comp k) ++ " " ++ labels k))

def pluralize_ru (q : ℤ) (sing few many : String) : String :=
  if q.natAbs % 10 = 1 ∧ q.natAbs % 100 ≠ 11 then toString q ++ " " ++ sing
  else if (q.natAbs % 10 = 2 ∨ q.natAbs % 10 = 3 ∨ q.natAbs % 10 = 4) ∧
      ¬(q.natAbs % 100 = 12 ∨ q.natAbs % 100 = 13 ∨ q.natAbs % 100 = 14) then
    toString q ++ " " ++ few
  else toString q ++ " " ++ many

def format_russian (comp : List (String × ℤ))
    (labels : String → String × String × String) : String :=
  String.intercalate ", "
    ((tdcKeys.filter (fun k => decide (tdcGet comp k ≠ 0))).map
      (fun k => pluralize_ru (tdcGet comp k) (labels k).1 (labels k).2.1 (labels k).2.2))

def duration_to_string_zh (td : ℚ) : String :=
  format_no_space (extract_components td) LABELS_ZH "， "

def duration_to_string_es (td : ℚ) : String :=
  format_standard (extract_components td) LABELS_ES

def duration_to_string_en (td : ℚ) : String :=
  format_standard (extract_components td) LABELS_EN

def duration_to_string_hi (td : ℚ) : String :=
  format_standard (extract_components td) LABELS_HI

def duration_to_string_bn (td : ℚ) : String :=
  format_standard (extract_components td) LABELS_BN

def duration_to_string_pt (td : ℚ) : String :=
  format_standard (extract_components td) LABELS_PT

def duration_to_string_ja (td : ℚ) : String :=
  format_no_space (extract_components td) LABELS_JA "、"

def duration_to_string_mr (td : ℚ) : String :=
  format_with_space (extract_components td) LABELS_MR

def duration_to_string_ru (td : ℚ) : String :=
  format_russian (extract_components td) LABELS_RU

def duration_to_string_vi (td : ℚ) : String :=
  format_with_space (extract_components td) LABELS_VI

def duration_to_string_tr (td : ℚ) : String :=
  format_standard (extract_components td) LABELS_TR

/-- The language code `locale_dict` derives from the ambient locale
name: `locale_name.split("_", 1)[0]` — the text before the first
underscore, the whole name when it has none, and the empty string when
the locale is unset. -/
def locale_lang : Option String → List Char
  | some nm => nm.data.takeWhile (fun c => c ≠ '_')
  | none => []

/-- The `handlers` dictionary of `duration_to_string`, in source
order. -/
def langHandlers : List (List Char × (ℚ → String)) :=
  [(strOf "zh", duration_to_string_zh), (strOf "es", duration_to_string_es),
   (strOf "en", duration_to_string_en), (strOf "hi", duration_to_string_hi),
   (strOf "pt", duration_to_string_pt), (strOf "bn", duration_to_string_bn),
   (strOf "ru", duration_to_string_ru), (strOf "ja", duration_to_string_ja),
   (strOf "vi", duration_to_string_vi), (strOf "tr", duration_to_string_tr),
   (strOf "mr", duration_to_string_mr)]

def supportedLangs : List (List Char) :=
  [strOf "zh", strOf "es", strOf "en", strOf "hi", strOf "pt", strOf "bn",
   strOf "ru", strOf "ja", strOf "vi", strOf "tr", strOf "mr"]

/-- `timedelta.duration_to_string`: pick the formatter for the ambient
language code (en when localization is off); a missing handler raises
RuntimeError.  The dead default of `locale_dict().get("lang_code",
"en")` never applies, since `locale_dict` always carries the key. -/
def duration_to_string (localeName : Option String) (localize : Bool) (td : ℚ) :
    Except String String :=
  match langHandlers.find?
      (fun p => decide (p.1 = (if localize then locale_lang localeName
        else strOf "en"))) with
  | some p => .ok (p.2 td)
  | none => .error "encountered an issue with the locale"

/-! ## Lemmas about the duration accumulation -/

theorem getLast?_mem_self {α : Type} : ∀ {l : List α} {a : α},
    l.getLast? = some a → a ∈ l
  | [], _, h => by cases h
  | [b], a, h => by
    simp [List.getLast?] at h
    simp [h]
  | b :: c :: t, a, h => by
    rw [List.getLast?_cons_cons] at h
    exact List.mem_cons_of_mem _ (getLast?_mem_self h)

theorem sumVal_cons (u u0 : TUnit) (v : ℚ) (fs : List Fld) :
    sumVal u ((u0, v) :: fs) = (if u0 = u then v else 0) + sumVal u fs := by
  by_cases h : u0 = u <;> simp [sumVal, List.filter, h]

/-- The spec-side weighted sum over all occurrences, regrouped per unit
in the shape of the source's `timedelta(...)` call. -/
theorem fieldsVal_expand (fs : List Fld) :
    fieldsVal fs =
      (sumVal .years fs * 365 + sumVal .months fs * 30 + sumVal .weeks fs * 7 +
          sumVal .days fs) * 86400000000 +
        sumVal .hours fs * 3600000000 + sumVal .minutes fs * 60000000 +
        sumVal .seconds fs * 1000000 + sumVal .milliseconds fs * 1000 +
        sumVal .microseconds fs := by
  induction fs with
  | nil => simp [fieldsVal, sumVal]
  | cons p fs ih =>
    rcases p with ⟨u0, v⟩
    have hc : fieldsVal ((u0, v) :: fs) = unitWeight u0 * v + fieldsVal fs := by
      simp [fieldsVal]
    rw [hc, ih]
    cases u0 <;> simp [sumVal_cons, unitWeight] <;> ring

theorem sumVal_nil (u : TUnit) : sumVal u [] = 0 := by
  simp [sumVal]

theorem sumVal_single_eq (u : TUnit) (v : ℚ) : sumVal u [(u, v)] = v := by
  simp [sumVal, List.filter]

theorem sumVal_single_ne (u u0 : TUnit) (v : ℚ) (h : u0 ≠ u) :
    sumVal u [(u0, v)] = 0 := by
  simp [sumVal, List.filter, h]

theorem lastVal_filter_nil (u : TUnit) (fs : List Fld)
    (h : fs.filter (fun p => decide (p.1 = u)) = []) : lastVal u fs = 0 := by
  unfold lastVal
  rw [h]
  rfl

theorem lastVal_cons_ne (u u0 : TUnit) (v : ℚ) (fs : List Fld) (h : u0 ≠ u) :
    lastVal u ((u0, v) :: fs) = lastVal u fs := by
  unfold lastVal
  have : ((u0, v) :: fs).filter (fun p => decide (p.1 = u)) =
      fs.filter (fun p => decide (p.1 = u)) := by
    simp [List.filter, h]
  rw [this]

theorem filter_cons_self (u : TUnit) (v : ℚ) (fs : List Fld) :
    ((u, v) :: fs).filter (fun p => decide (p.1 = u)) =
      (u, v) :: fs.filter (fun p => decide (p.1 = u)) := by
  simp [List.filter]

theorem lastVal_cons_of_rest_nil (u : TUnit) (v : ℚ) (fs : List Fld)
    (h : fs.filter (fun p => decide (p.1 = u)) = []) :
    lastVal u ((u, v) :: fs) = v := by
  unfold lastVal
  rw [filter_cons_self, h]
  rfl

theorem lastVal_cons_of_rest_ne (u : TUnit) (v : ℚ) (fs : List Fld)
    (h : fs.filter (fun p => decide (p.1 = u)) ≠ []) :
    lastVal u ((u, v) :: fs) = lastVal u fs := by
  unfold lastVal
  rw [filter_cons_self]
  match hfe : fs.filter (fun p => decide (p.1 = u)) with
  | [] => exact absurd hfe h
  | b :: t => rw [hfe, List.getLast?_cons_cons]

theorem lastVal_eq_sumVal (u : TUnit) (fs : List Fld)
    (h : fs.countP (fun p => decide (p.1 = u)) ≤ 1) :
    lastVal u fs = sumVal u fs := by
  have hl : (fs.filter (fun p => decide (p.1 = u))).length ≤ 1 := by
    rw [← List.countP_eq_length_filter]
    exact h
  unfold lastVal sumVal
  rcases hfe : fs.filter (fun p => decide (p.1 = u)) with _ | ⟨a, _ | ⟨b, t⟩⟩
  · rw [hfe]
    simp
  · rw [hfe]
    simp [List.getLast?]
  · rw [hfe] at hl
    simp at hl

theorem mem_keepLast {fs : List Fld} {p : Fld} (h : p ∈ keepLast fs) : p ∈ fs := by
  induction fs with
  | nil => cases h
  | cons q fs ih =>
    unfold keepLast at h
    rcases List.mem_append.mp h with h1 | h2
    · split at h1
      · cases h1
      · simp at h1
        simp [h1]
    · exact List.mem_cons_of_mem _ (ih h2)

theorem sumVal_append (u : TUnit) (l1 l2 : List Fld) :
    sumVal u (l1 ++ l2) = sumVal u l1 + sumVal u l2 := by
  simp [sumVal, List.filter_append]

/-- Per unit, keeping only the last occurrence and then summing agrees
with Python's last-capture semantics. -/
theorem sumVal_keepLast (u : TUnit) (fs : List Fld) :
    sumVal u (keepLast fs) = lastVal u fs := by
  induction fs with
  | nil => simp [keepLast, sumVal, lastVal]
  | cons p fs ih =>
    rcases p with ⟨u0, v⟩
    unfold keepLast
    rw [sumVal_append]
    by_cases hu : u0 = u
    · subst hu
      by_cases ha : fs.any (fun q => decide (q.1 = u0)) = true
      · have hne : fs.filter (fun p => decide (p.1 = u0)) ≠ [] := by
          rcases List.any_eq_true.mp ha with ⟨q, hq, hq2⟩
          intro hnil
          have hm : q ∈ fs.filter (fun p => decide (p.1 = u0)) :=
            List.mem_filter.mpr ⟨hq, hq2⟩
          rw [hnil] at hm
          cases hm
        rw [if_pos ha, sumVal_nil, zero_add, ih,
          lastVal_cons_of_rest_ne u0 v fs hne]
      · have hnil : fs.filter (fun p => decide (p.1 = u0)) = [] := by
          rw [List.filter_eq_nil_iff]
          intro q hq
          simp only [decide_eq_true_eq]
          intro hq2
          exact ha (List.any_eq_true.mpr ⟨q, hq, by simp [hq2]⟩)
        rw [if_neg ha, ih, lastVal_filter_nil u0 fs hnil,
          lastVal_cons_of_rest_nil u0 v fs hnil, sumVal_single_eq]
        ring
    · by_cases ha : fs.any (fun q => decide (q.1 = u0)) = true
      · rw [if_pos ha, sumVal_nil, zero_add, ih, lastVal_cons_ne u u0 v fs hu]
      · rw [if_neg ha, sumVal_single_ne u u0 v hu, ih,
          lastVal_cons_ne u u0 v fs hu]
        ring

/-! ## Non-negativity invariant of the duration matcher -/

theorem natOfDigits_nonneg (ds : List Char) : (0 : ℚ) ≤ (natOfDigits ds : ℚ) := by
  exact_mod_cast Nat.zero_le _

theorem fracOfDigits_nonneg (ds : List Char) : (0 : ℚ) ≤ fracOfDigits ds := by
  unfold fracOfDigits
  positivity

theorem parseNumber_nonneg (cs : List Char) (v : ℚ) (rest : List Char)
    (h : parseNumber cs = some (v, rest)) : 0 ≤ v := by
  unfold parseNumber at h
  by_cases he : (cs.span Char.isDigit).1.isEmpty = true
  · rw [if_pos he] at h
    cases h
  · rw [if_neg he] at h
    rcases hm : (cs.span Char.isDigit).2 with _ | ⟨c, r2⟩ <;> rw [hm] at h
    · simp only [Option.some.injEq, Prod.mk.injEq] at h
      rw [← h.1]
      exact natOfDigits_nonneg _
    · dsimp only [] at h
      by_cases hc : c = '.'
      · rw [if_pos hc] at h
        by_cases hq : (r2.span Char.isDigit).1.isEmpty = true
        · rw [if_pos hq] at h
          simp only [Option.some.injEq, Prod.mk.injEq] at h
          rw [← h.1]
          exact natOfDigits_nonneg _
        · rw [if_neg hq] at h
          simp only [Option.some.injEq, Prod.mk.injEq] at h
          rw [← h.1]
          exact add_nonneg (natOfDigits_nonneg _) (fracOfDigits_nonneg _)
      · rw [if_neg hc] at h
        simp only [Option.some.injEq, Prod.mk.injEq] at h
        rw [← h.1]
        exact natOfDigits_nonneg _

theorem orElse_some {α : Type} {a b : Option α} {x : α} (h : (a <|> b) = some x) :
    a = some x ∨ (a = none ∧ b = some x) := by
  cases a with
  | none => exact Or.inr ⟨rfl, by simpa using h⟩
  | some y => exact Or.inl (by simpa using h)

theorem tryBoundaryThen_nn (k : Option Char → List Char → Option (List Fld))
    (hk : ∀ pr cs fs, k pr cs = some fs → ∀ p ∈ fs, 0 ≤ p.2)
    (prev : Option Char) (rest : List Char) (fs : List Fld)
    (h : tryBoundaryThen k prev rest = some fs) : ∀ p ∈ fs, 0 ≤ p.2 := by
  unfold tryBoundaryThen at h
  split at h
  · split at h
    · rename_i f hk0
      injection h with h
      subst h
      exact hk _ _ _ hk0
    · split at h
      · injection h with h
        subst h
        intro p hp
        cases hp
      · cases h
  · cases h

theorem trySeps_nn (k : Option Char → List Char → Option (List Fld))
    (hk : ∀ pr cs fs, k pr cs = some fs → ∀ p ∈ fs, 0 ≤ p.2)
    (uLast : Char) (seps rest : List Char) :
    ∀ (j : ℕ) (fs : List Fld), trySeps k uLast seps rest j = some fs →
      ∀ p ∈ fs, 0 ≤ p.2 := by
  intro j
  induction j with
  | zero =>
    intro fs h
    exact tryBoundaryThen_nn k hk _ _ fs h
  | succ j ih =>
    intro fs h
    unfold trySeps at h
    rcases orElse_some h with h1 | ⟨_, h2⟩
    · exact tryBoundaryThen_nn k hk _ _ fs h1
    · exact ih fs h2

theorem tryKws_nn (k : Option Char → List Char → Option (List Fld))
    (hk : ∀ pr cs fs, k pr cs = some fs → ∀ p ∈ fs, 0 ≤ p.2)
    (u : TUnit) (v : ℚ) (hv : 0 ≤ v) :
    ∀ (kws : List (List Char)) (cs : List Char) (fs : List Fld),
      tryKws k u v kws cs = some fs → ∀ p ∈ fs, 0 ≤ p.2 := by
  intro kws
  induction kws with
  | nil =>
    intro cs fs h
    cases h
  | cons kw kws ih =>
    intro cs fs h
    unfold tryKws at h
    rcases orElse_some h with h1 | ⟨_, h2⟩
    · split at h1
      · rename_i cs2 hsp
        split at h1
        · rename_i uLast hLast
          rcases Option.map_eq_some'.mp h1 with ⟨flds, hts, hfs⟩
          subst hfs
          intro p hp
          rcases List.mem_cons.mp hp with hp1 | hp2
          · rw [hp1]
            exact hv
          · exact trySeps_nn k hk uLast _ _ _ flds hts p hp2
        · cases h1
      · cases h1
    · exact ih cs fs h2

theorem tryAlts_nn (k : Option Char → List Char → Option (List Fld))
    (hk : ∀ pr cs fs, k pr cs = some fs → ∀ p ∈ fs, 0 ≤ p.2)
    (v : ℚ) (hv : 0 ≤ v) :
    ∀ (alts : List (TUnit × List (List Char))) (cs : List Char) (fs : List Fld),
      tryAlts k v alts cs = some fs → ∀ p ∈ fs, 0 ≤ p.2 := by
  intro alts
  induction alts with
  | nil =>
    intro cs fs h
    cases h
  | cons a alts ih =>
    intro cs fs h
    rcases a with ⟨u, kws⟩
    unfold tryAlts at h
    rcases orElse_some h with h1 | ⟨_, h2⟩
    · exact tryKws_nn k hk u v hv kws cs fs h1
    · exact ih cs fs h2

theorem matchFields_nn :
    ∀ (fuel : ℕ) (prev : Option Char) (cs : List Char) (fs : List Fld),
      matchFields fuel prev cs = some fs → ∀ p ∈ fs, 0 ≤ p.2 := by
  intro fuel
  induction fuel with
  | zero =>
    intro prev cs fs h
    cases h
  | succ fuel ih =>
    intro prev cs fs h
    unfold matchFields at h
    split at h
    · split at h
      · rename_i v cs2 hpn
        exact tryAlts_nn (matchFields fuel) ih v
          (parseNumber_nonneg _ _ _ hpn) unitAlts _ fs h
      · cases h
    · cases h

theorem tdFromCaptures_nonneg (fs : List Fld) (h : ∀ p ∈ fs, 0 ≤ p.2) :
    0 ≤ tdFromCaptures fs := by
  have hl : ∀ u : TUnit, 0 ≤ lastVal u fs := by
    intro u
    unfold lastVal
    cases hg : (fs.filter (fun p => decide (p.1 = u))).getLast? with
    | none => simp [hg]
    | some p =>
      simp only [hg]
      exact h p (List.mem_of_mem_filter (getLast?_mem_self hg))
  unfold tdFromCaptures
  refine add_nonneg (add_nonneg (add_nonneg (add_nonneg (add_nonneg
    (mul_nonneg ?_ (by norm_num))
    (mul_nonneg (hl .hours) (by norm_num)))
    (mul_nonneg (hl .minutes) (by norm_num)))
    (mul_nonneg (hl .seconds) (by norm_num)))
    (mul_nonneg (hl .milliseconds) (by norm_num)))
    (hl .microseconds)
  exact add_nonneg (add_nonneg (add_nonneg
    (mul_nonneg (hl .years) (by norm_num))
    (mul_nonneg (hl .months) (by norm_num)))
    (mul_nonneg (hl .weeks) (by norm_num)))
    (hl .days)

/-! ## Claims about the duration parser -/

/-- Claim C2: for every duration string accepted by the grammar in which
each unit keyword appears at most once, `parse_timedelta_str` returns
the exact weighted sum of its fields under the fixed unit-length table
(years 365 days, months 30 days, weeks 7 days, the rest literal), all
accumulated into one normalized value. -/
theorem C2_parse_timedelta_weighted_sum (s : String) (fs : List Fld)
    (hp : parseDurFields s.data = some fs)
    (hd : ∀ u : TUnit, fs.countP (fun p => decide (p.1 = u)) ≤ 1) :
    parse_timedelta_str s = some (fieldsVal fs) := by
  have h1 : parse_timedelta_str s = some (tdFromCaptures fs) := by
    unfold parse_timedelta_str parse_timedelta_list
    rw [hp]
    rfl
  rw [h1]
  congr 1
  rw [fieldsVal_expand]
  unfold tdFromCaptures
  rw [lastVal_eq_sumVal .years fs (hd _), lastVal_eq_sumVal .months fs (hd _),
    lastVal_eq_sumVal .weeks fs (hd _), lastVal_eq_sumVal .days fs (hd _),
    lastVal_eq_sumVal .hours fs (hd _), lastVal_eq_sumVal .minutes fs (hd _),
    lastVal_eq_sumVal .seconds fs (hd _), lastVal_eq_sumVal .milliseconds fs (hd _),
    lastVal_eq_sumVal .microseconds fs (hd _)]

/-- Witness for C2 at the concrete input 2h 30m (9000 seconds). -/
theorem C2_parse_timedelta_weighted_sum_witness :
    parse_timedelta_str "2h 30m" = some (fieldsVal [(.hours, 2), (.minutes, 30)]) ∧
    fieldsVal [(.hours, 2), (.minutes, 30)] = 9000000000 :=
  ⟨C2_parse_timedelta_weighted_sum "2h 30m" [(.hours, 2), (.minutes, 30)]
      (by rfl) (by decide),
    by norm_num [fieldsVal, unitWeight]⟩

/-- Claim C4, counterexample: the claim says repeated occurrences of a
unit are summed, but Python named groups keep only the last capture, so
1d 2d parses to 2 days, not the 3-day sum over all occurrences. -/
theorem C4_counterexample_repeats_not_summed :
    parseDurFields ("1d 2d").data = some [(.days, 1), (.days, 2)] ∧
    parse_timedelta_str "1d 2d" = some 172800000000 ∧
    fieldsVal [(.days, 1), (.days, 2)] = 259200000000 ∧
    (172800000000 : ℚ) ≠ 259200000000 := by
  refine ⟨by rfl, ?_, by norm_num [fieldsVal, unitWeight], by norm_num⟩
  have hp : parseDurFields ("1d 2d").data = some [(.days, 1), (.days, 2)] := by rfl
  unfold parse_timedelta_str parse_timedelta_list
  rw [hp]
  simp only [Option.map_some']
  congr 1
  unfold tdFromCaptures
  rw [show lastVal .years [(.days, (1 : ℚ)), (.days, 2)] = 0 from rfl,
    show lastVal .months [(.days, (1 : ℚ)), (.days, 2)] = 0 from rfl,
    show lastVal .weeks [(.days, (1 : ℚ)), (.days, 2)] = 0 from rfl,
    show lastVal .days [(.days, (1 : ℚ)), (.days, 2)] = 2 from rfl,
    show lastVal .hours [(.days, (1 : ℚ)), (.days, 2)] = 0 from rfl,
    show lastVal .minutes [(.days, (1 : ℚ)), (.days, 2)] = 0 from rfl,
    show lastVal .seconds [(.days, (1 : ℚ)), (.days, 2)] = 0 from rfl,
    show lastVal .milliseconds [(.days, (1 : ℚ)), (.days, 2)] = 0 from rfl,
    show lastVal .microseconds [(.days, (1 : ℚ)), (.days, 2)] = 0 from rfl]
  norm_num

/-- Claim C4, amended: a duration string with a repeated unit keyword is
not rejected, and the returned value is the weighted sum in which each
unit contributes only its LAST occurrence (earlier occurrences are
discarded, per Python group-capture semantics). -/
theorem C4_repeats_keep_last_occurrence (s : String) (fs : List Fld)
    (hp : parseDurFields s.data = some fs) :
    parse_timedelta_str s = some (fieldsVal (keepLast fs)) := by
  have h1 : parse_timedelta_str s = some (tdFromCaptures fs) := by
    unfold parse_timedelta_str parse_timedelta_list
    rw [hp]
    rfl
  rw [h1]
  congr 1
  rw [fieldsVal_expand]
  unfold tdFromCaptures
  rw [sumVal_keepLast, sumVal_keepLast, sumVal_keepLast, sumVal_keepLast,
    sumVal_keepLast, sumVal_keepLast, sumVal_keepLast, sumVal_keepLast,
    sumVal_keepLast]

/-- Witness for the amended C4 at the concrete input 1d 2d. -/
theorem C4_repeats_keep_last_occurrence_witness :
    parse_timedelta_str "1d 2d" = some (fieldsVal (keepLast [(.days, 1), (.days, 2)])) ∧
    fieldsVal (keepLast [(.days, 1), (.days, 2)]) = 172800000000 :=
  ⟨C4_repeats_keep_last_occurrence "1d 2d" [(.days, 1), (.days, 2)] (by rfl),
    by
      rw [show keepLast [(.days, (1 : ℚ)), (.days, 2)] = [(.days, 2)] from rfl]
      norm_num [fieldsVal, unitWeight]⟩

/-- Claim C10: every input accepted by `parse_timedelta_str` yields a
non-negative duration, because the grammar admits only non-negative
decimal numbers in every unit field. -/
theorem C10_parse_timedelta_nonneg (s : String) (d : ℚ)
    (h : parse_timedelta_str s = some d) : 0 ≤ d := by
  unfold parse_timedelta_str parse_timedelta_list at h
  cases hp : parseDurFields s.data with
  | none =>
    rw [hp] at h
    cases h
  | some fs =>
    rw [hp] at h
    simp only [Option.map_some'] at h
    injection h with h
    rw [← h]
    exact tdFromCaptures_nonneg fs (matchFields_nn (s.data.length + 1) none s.data fs hp)

/-- Witness for C10 at the concrete input 1d. -/
theorem C10_parse_timedelta_nonneg_witness :
    parse_timedelta_str "1d" = some 86400000000 ∧ (0 : ℚ) ≤ 86400000000 := by
  have h : parse_timedelta_str "1d" = some 86400000000 := by
    have hp : parseDurFields ("1d").data = some [(.days, 1)] := by rfl
    unfold parse_timedelta_str parse_timedelta_list
    rw [hp]
    simp only [Option.map_some']
    congr 1
    unfold tdFromCaptures
    rw [show lastVal .years [(.days, (1 : ℚ))] = 0 from rfl,
      show lastVal .months [(.days, (1 : ℚ))] = 0 from rfl,
      show lastVal .weeks [(.days, (1 : ℚ))] = 0 from rfl,
      show lastVal .days [(.days, (1 : ℚ))] = 1 from rfl,
      show lastVal .hours [(.days, (1 : ℚ))] = 0 from rfl,
      show lastVal .minutes [(.days, (1 : ℚ))] = 0 from rfl,
      show lastVal .seconds [(.days, (1 : ℚ))] = 0 from rfl,
      show lastVal .milliseconds [(.days, (1 : ℚ))] = 0 from rfl,
      show lastVal .microseconds [(.days, (1 : ℚ))] = 0 from rfl]
    norm_num
  exact ⟨h, C10_parse_timedelta_nonneg "1d" 86400000000 h⟩

/-! ## Lemmas about the offset alternative of the timezone scanner -/

theorem hourAt_render (neg : Bool) (h m : ℕ) (hh : h ≤ 99) :
    hourAt (renderOffset neg h m) (0 + 1) = decide (h ≤ 14) := by
  interval_cases h <;> rfl

theorem minAt_render (neg : Bool) (h m : ℕ) (hm : m ≤ 99) :
    minAt (renderOffset neg h m) (0 + 4) =
      decide (m = 0 ∨ m = 15 ∨ m = 30 ∨ m = 45) := by
  interval_cases m <;> rfl

/-- The offset alternative accepts a rendered two-digit offset exactly
when the hour is at most 14 (for either sign) and the minute is one of
00, 15, 30, 45. -/
theorem offsetAt_render (neg : Bool) (h m : ℕ) (hh : h ≤ 99) (hm : m ≤ 99) :
    offsetAt (renderOffset neg h m) 0 =
      (decide (h ≤ 14) && decide (m = 0 ∨ m = 15 ∨ m = 30 ∨ m = 45)) := by
  unfold offsetAt
  rw [hourAt_render neg h m hh, minAt_render neg h m hm,
    show offsetLookbehind (renderOffset neg h m) 0 = true from rfl,
    show charIs (renderOffset neg h m) 0 (fun c => c = '+' || c = '-') = true by
      cases neg <;> rfl,
    show charIs (renderOffset neg h m) (0 + 3) (fun c => c = ':') = true from rfl]
  simp [Bool.and_assoc]

theorem fullMatchTz_nil_none (s : List Char) (hofs : offsetAt s 0 = false) :
    fullMatchTz [] s = none := by
  unfold fullMatchTz
  rw [hofs]
  rfl

/-- Full-match scanning of a valid rendered offset resolves to the
fixed offset it encodes, in any environment (the resolution never
consults the zone database for an offset token). -/
theorem search_tz_render_offset (env : TzEnv) (neg : Bool) (h m : ℕ)
    (h14 : h ≤ 14) (hm4 : m = 0 ∨ m = 15 ∨ m = 30 ∨ m = 45) :
    search_tz env (renderOffset neg h m) true =
      some (.fixedOffset (offsetSecVal neg h m), []) := by
  rcases hm4 with rfl | rfl | rfl | rfl <;> interval_cases h <;> cases neg <;> rfl

/-! ## Claims about the timezone scanner's offset alternative -/

/-- Claim C5, counterexample: the claim says the offset alternative
only matches signed hours in -12..+14, so that -13:00 finds no offset
match; in fact the pattern bounds the hour by 14 for both signs, and
full-match scanning of -13:00 succeeds with a fixed offset of -780
minutes (-46800 seconds). -/
theorem C5_counterexample_minus13_matches :
    search_tz env0 (strOf "-13:00") true =
      some (.fixedOffset (-46800), ([] : List Char)) := by
  rfl

/-- Claim C5, amended: the offset alternative matches a ±HH:MM token
exactly when the two-digit hour is at most 14 — for BOTH signs, so the
accepted signed range is -14:45..+14:45, not -12..+14 — and the minutes
are one of 00, 15, 30, 45. -/
theorem C5_offset_bounds_symmetric (neg : Bool) (h m : ℕ) (hh : h ≤ 99)
    (hm : m ≤ 99) :
    ((search_tz env0 (renderOffset neg h m) true).isSome = true ↔
      (h ≤ 14 ∧ (m = 0 ∨ m = 15 ∨ m = 30 ∨ m = 45))) := by
  constructor
  · intro hs
    by_contra hcon
    have hofs : offsetAt (renderOffset neg h m) 0 = false := by
      rw [offsetAt_render neg h m hh hm]
      by_cases hA : h ≤ 14
      · have hB : ¬(m = 0 ∨ m = 15 ∨ m = 30 ∨ m = 45) := fun hB => hcon ⟨hA, hB⟩
        simp [hB]
      · simp [hA]
    have hnone : search_tz env0 (renderOffset neg h m) true = none := by
      unfold search_tz
      rw [show fullMatchTz env0.zonesAlt (renderOffset neg h m) = none from
        fullMatchTz_nil_none _ hofs]
      rfl
    rw [hnone] at hs
    cases hs
  · rintro ⟨h14, hm4⟩
    rw [search_tz_render_offset env0 neg h m h14 hm4]
    rfl

/-- Witness for the amended C5: -13:00 matches, -15:00 does not. -/
theorem C5_offset_bounds_symmetric_witness :
    (search_tz env0 (renderOffset true 13 0) true).isSome = true ∧
    (search_tz env0 (renderOffset true 15 0) true).isSome = false :=
  ⟨(C5_offset_bounds_symmetric true 13 0 (by norm_num) (by norm_num)).mpr
      (by norm_num),
    by
      have hiff := C5_offset_bounds_symmetric true 15 0 (by norm_num) (by norm_num)
      by_contra hne
      have ht : (search_tz env0 (renderOffset true 15 0) true).isSome = true := by
        cases hv : (search_tz env0 (renderOffset true 15 0) true).isSome
        · exact absurd hv hne
        · rfl
      have := hiff.mp ht
      omega⟩

/-- Claim C6: for every offset string ±HH:MM with the hour at most 14
and the minute in `{00, 15, 30, 45}`, full-match scanning succeeds and
returns a fixed-offset timezone whose offset equals the signed encoded
value — sign times (60*HH + MM) minutes, stored as seconds — with no
zone-database lookup involved (the result is the same in every
environment). -/
theorem C6_offset_fullmatch_fixed (env : TzEnv) (neg : Bool) (h m : ℕ)
    (h14 : h ≤ 14) (hm4 : m = 0 ∨ m = 15 ∨ m = 30 ∨ m = 45) :
    search_tz env (renderOffset neg h m) true =
      some (.fixedOffset (offsetSecVal neg h m), []) :=
  search_tz_render_offset env neg h m h14 hm4

/-- Witness for C6 at +05:30 (330 minutes east, 19800 seconds). -/
theorem C6_offset_fullmatch_fixed_witness :
    search_tz env0 (renderOffset false 5 30) true =
      some (.fixedOffset 19800, []) := by
  have hc := C6_offset_fullmatch_fixed env0 false 5 30 (by norm_num) (by norm_num)
  rw [show offsetSecVal false 5 30 = 19800 from rfl] at hc
  exact hc

/-! ## Lemmas for the rescan property of the timezone scanner -/

theorem scanFrom_eq_some (f : ℕ → Option Tok) :
    ∀ (fuel i j : ℕ) (t : Tok), scanFrom f i fuel = some (j, t) →
      f j = some t ∧ i ≤ j ∧ ∀ k, i ≤ k → k < j → f k = none := by
  intro fuel
  induction fuel with
  | zero =>
    intro i j t h
    cases h
  | succ fuel ih =>
    intro i j t h
    unfold scanFrom at h
    cases hf : f i with
    | some t0 =>
      rw [hf] at h
      simp only [Option.some.injEq, Prod.mk.injEq] at h
      obtain ⟨rfl, rfl⟩ := h
      exact ⟨hf, Nat.le_refl _, fun k hk1 hk2 => absurd hk2 (by omega)⟩
    | none =>
      rw [hf] at h
      obtain ⟨h1, h2, h3⟩ := ih (i + 1) j t h
      refine ⟨h1, by omega, ?_⟩
      intro k hk1 hk2
      rcases Nat.eq_or_lt_of_le hk1 with rfl | hlt
      · exact hf
      · exact h3 k (by omega) hk2

theorem scanFrom_eq_none (f : ℕ → Option Tok) (hf : ∀ k, f k = none) :
    ∀ (fuel i : ℕ), scanFrom f i fuel = none := by
  intro fuel
  induction fuel with
  | zero =>
    intro i
    rfl
  | succ fuel ih =>
    intro i
    unfold scanFrom
    rw [hf i]
    exact ih (i + 1)

theorem charAt_take (s : List Char) (b j : ℕ) (hj : j < b) :
    charAt (s.take b) j = charAt s j := by
  unfold charAt
  exact List.getElem?_take_of_lt hj

theorem charIs_lt (s : List Char) (i : ℕ) (p : Char → Bool)
    (h : charIs s i p = true) : i < s.length := by
  unfold charIs at h
  cases hc : charAt s i with
  | none =>
    rw [hc] at h
    cases h
  | some c =>
    unfold charAt at hc
    obtain ⟨hlt, -⟩ := List.getElem?_eq_some_iff.mp hc
    exact hlt

theorem charIs_elim (s : List Char) (i : ℕ) (p : Char → Bool)
    (h : charIs s i p = true) : ∃ c, charAt s i = some c ∧ p c = true := by
  unfold charIs at h
  cases hc : charAt s i with
  | none =>
    rw [hc] at h
    cases h
  | some c =>
    rw [hc] at h
    exact ⟨c, rfl, h⟩

theorem charIs_take (s : List Char) (b i : ℕ) (hi : i < b) :
    ∀ p, charIs (s.take b) i p = charIs s i p := by
  intro p
  unfold charIs
  rw [charAt_take s b i hi]

theorem hourAt_take (s : List Char) (b i : ℕ) (hi : i + 1 < b) :
    hourAt (s.take b) i = hourAt s i := by
  unfold hourAt
  simp only [charIs_take s b i (by omega), charIs_take s b (i + 1) hi]

theorem minAt_take (s : List Char) (b i : ℕ) (hi : i + 1 < b) :
    minAt (s.take b) i = minAt s i := by
  unfold minAt
  simp only [charIs_take s b i (by omega), charIs_take s b (i + 1) hi]

theorem offsetLookbehind_take (s : List Char) (b q : ℕ) (hq : q ≤ b) :
    offsetLookbehind (s.take b) q = offsetLookbehind s q := by
  cases q with
  | zero => rfl
  | succ j =>
    simp only [offsetLookbehind, charAt_take s b j (by omega)]

theorem charIs_ge (s : List Char) (i : ℕ) (p : Char → Bool)
    (hge : s.length ≤ i) : charIs s i p = false := by
  unfold charIs charAt
  rw [List.getElem?_eq_none hge]

theorem minAt_lt (s : List Char) (i : ℕ) (h : minAt s i = true) :
    i + 1 < s.length := by
  by_contra hcon
  push_neg at hcon
  have hf : ∀ p, charIs s (i + 1) p = false := fun p => charIs_ge s (i + 1) p (by omega)
  unfold minAt at h
  simp only [hf] at h
  simp at h

theorem offsetAt_lt (s : List Char) (q : ℕ) (h : offsetAt s q = true) :
    q + 6 ≤ s.length := by
  unfold offsetAt at h
  rw [Bool.and_eq_true] at h
  have := minAt_lt s (q + 4) h.2
  omega

theorem offsetAt_take_eq (s : List Char) (b q : ℕ) (hq : q + 6 ≤ b) :
    offsetAt (s.take b) q = offsetAt s q := by
  unfold offsetAt
  rw [offsetLookbehind_take s b q (by omega), charIs_take s b q (by omega),
    hourAt_take s b (q + 1) (by omega), charIs_take s b (q + 3) (by omega),
    minAt_take s b (q + 4) (by omega)]

theorem subEq_len (s : List Char) (i : ℕ) (z : List Char) (hz : z ≠ [])
    (h : subEqAt s i z = true) : i + z.length ≤ s.length := by
  have h2 : (s.drop i).take z.length = z := of_decide_eq_true h
  have hlen : ((s.drop i).take z.length).length = z.length := by rw [h2]
  rw [List.length_take, List.length_drop] at hlen
  have hz1 : 1 ≤ z.length := by
    cases z with
    | nil => exact absurd rfl hz
    | cons c cs => simp
  omega

theorem subEq_take (s : List Char) (b i : ℕ) (z : List Char) (hb : b ≤ s.length)
    (hz : z ≠ []) (h : subEqAt (s.take b) i z = true) :
    i + z.length ≤ b ∧ subEqAt s i z = true := by
  have hlb : i + z.length ≤ (s.take b).length := subEq_len (s.take b) i z hz h
  rw [List.length_take] at hlb
  have hib : i + z.length ≤ b := by omega
  refine ⟨hib, ?_⟩
  have h2 : ((s.take b).drop i).take z.length = z := of_decide_eq_true h
  rw [List.drop_take, List.take_take, min_eq_left (by omega)] at h2
  exact decide_eq_true h2

theorem subEq_head (s : List Char) (i : ℕ) (c : Char) (cs : List Char)
    (h : subEqAt s i (c :: cs) = true) : charAt s i = some c := by
  have h2 : (s.drop i).take (c :: cs).length = c :: cs := of_decide_eq_true h
  cases hd : s.drop i with
  | nil =>
    rw [hd] at h2
    simp at h2
  | cons x xs =>
    rw [hd] at h2
    simp only [List.length_cons, List.take_succ_cons, List.cons.injEq] at h2
    unfold charAt
    have h0 : (s.drop i)[0]? = some c := by
      rw [hd]
      simp [h2.1]
    rw [List.getElem?_drop] at h0
    simpa using h0

theorem wordAt_take (s : List Char) (b i : ℕ) (hi : i < b) :
    wordAt (s.take b) i = wordAt s i := by
  unfold wordAt
  rw [charAt_take s b i hi]

theorem wordAt_ge (s : List Char) (i : ℕ) (hge : s.length ≤ i) :
    wordAt s i = false := by
  unfold wordAt charAt
  rw [List.getElem?_eq_none hge]

theorem wordBefore_take (s : List Char) (b i : ℕ) (hi : i ≤ b) (hi0 : i ≠ 0)
    (hb : b ≤ s.length) : wordBefore (s.take b) i = wordBefore s i := by
  cases i with
  | zero => exact absurd rfl hi0
  | succ j =>
    unfold wordBefore
    by_cases hj : j < b
    · exact wordAt_take s b j hj
    · omega

theorem wordBefore_zero_eq (s : List Char) : wordBefore s 0 = false := rfl

theorem boundaryAt_take (s : List Char) (b i : ℕ) (hi : i < b) (hb : b ≤ s.length) :
    boundaryAt (s.take b) i = boundaryAt s i := by
  unfold boundaryAt
  cases i with
  | zero =>
    rw [wordAt_take s b 0 hi]
    rfl
  | succ j =>
    rw [wordAt_take s b (j + 1) hi,
      wordBefore_take s b (j + 1) (by omega) (by omega) hb]

/-- The right boundary of a name ending exactly at the cut point: in
the truncated string it reduces to the wordness of the last kept
character. -/
theorem boundaryAt_end_take (s : List Char) (b : ℕ) (hb0 : 0 < b)
    (hb : b ≤ s.length) : boundaryAt (s.take b) b = wordAt s (b - 1) := by
  unfold boundaryAt
  have hlen : (s.take b).length = b := by
    rw [List.length_take]
    omega
  rw [wordAt_ge (s.take b) b (by omega)]
  cases b with
  | zero => omega
  | succ j =>
    have hw : wordBefore (s.take (j + 1)) (j + 1) = wordAt (s.take (j + 1)) j := rfl
    rw [hw, wordAt_take s (j + 1) j (by omega)]
    simp

theorem nameMatchAt_take (s : List Char) (b q : ℕ) (z : List Char)
    (hb : b ≤ s.length) (hz : z ≠ [])
    (h : nameMatchAt (s.take b) q z = true) :
    q + z.length ≤ b ∧ boundaryAt s q = true ∧ subEqAt s q z = true ∧
      (q + z.length < b → nameMatchAt s q z = true) ∧
      (q + z.length = b → wordAt s (b - 1) = true) := by
  unfold nameMatchAt at h
  rw [Bool.and_eq_true, Bool.and_eq_true] at h
  obtain ⟨⟨hbl, hsub⟩, hbr⟩ := h
  obtain ⟨hq, hsub2⟩ := subEq_take s b q z hb hz hsub
  have hz1 : 1 ≤ z.length := by
    cases z with
    | nil => exact absurd rfl hz
    | cons c cs => simp
  have hq0 : q < b := by omega
  have hbl2 : boundaryAt s q = true := by
    rw [← boundaryAt_take s b q hq0 hb]
    exact hbl
  refine ⟨hq, hbl2, hsub2, ?_, ?_⟩
  · intro hlt
    unfold nameMatchAt
    rw [Bool.and_eq_true, Bool.and_eq_true]
    refine ⟨⟨hbl2, hsub2⟩, ?_⟩
    rw [← boundaryAt_take s b (q + z.length) hlt hb]
    exact hbr
  · intro heq
    rw [heq, boundaryAt_end_take s b (by omega) hb] at hbr
    exact hbr

theorem matchAt_isSome_of_offset (zones : List (List Char)) (s : List Char)
    (q : ℕ) (h : offsetAt s q = true) : (matchAt zones s q).isSome = true := by
  unfold matchAt
  rw [if_pos h]
  rfl

theorem matchAt_isSome_of_name (zones : List (List Char)) (s : List Char)
    (q : ℕ) (z : List Char) (hz : z ∈ zones) (hm : nameMatchAt s q z = true) :
    (matchAt zones s q).isSome = true := by
  unfold matchAt
  by_cases ho : offsetAt s q = true
  · rw [if_pos ho]
    rfl
  · rw [if_neg ho]
    have hsome : (zones.find? (fun z => nameMatchAt s q z)).isSome :=
      List.find?_isSome.mpr ⟨z, hz, hm⟩
    cases hfe : zones.find? (fun z => nameMatchAt s q z) with
    | none =>
      rw [hfe] at hsome
      cases hsome
    | some z' =>
      rfl

theorem matchAt_cases (zones : List (List Char)) (s : List Char) (b : ℕ)
    (tok : Tok) (h : matchAt zones s b = some tok) :
    (offsetAt s b = true ∧ tok = .off ((s.drop b).take 6)) ∨
    (∃ z, z ∈ zones ∧ nameMatchAt s b z = true ∧ tok = .nm z) := by
  unfold matchAt at h
  by_cases ho : offsetAt s b = true
  · rw [if_pos ho] at h
    injection h with h
    exact Or.inl ⟨ho, h.symm⟩
  · rw [if_neg ho] at h
    cases hfe : zones.find? (fun z => nameMatchAt s b z) with
    | none =>
      rw [hfe] at h
      cases h
    | some z =>
      rw [hfe] at h
      injection h with h
      exact Or.inr ⟨z, List.mem_of_find?_eq_some hfe, List.find?_some hfe, h.symm⟩

theorem wordBefore_succ (s : List Char) (j : ℕ) :
    wordBefore s (j + 1) = wordAt s j := rfl

/-- If the leftmost token of the scan extends to the end of the input,
re-scanning the remainder (the text before the token) finds no further
match: a sub-token in the remainder would either transfer to the
original string left of the leftmost match, or abut the cut point,
which the word-boundary conditions rule out. -/
theorem rescan_none_of_token_at_end (zones : List (List Char)) (s : List Char)
    (b : ℕ) (tok : Tok)
    (hz : ∀ z ∈ zones, z ≠ [] ∧ isWordChar (z.headD 'A') = true)
    (hf : findMatch zones s = some (b, tok))
    (hend : b + tokLen tok = s.length) :
    findMatch zones (s.take b) = none := by
  obtain ⟨hmb, -, hmin⟩ := scanFrom_eq_some (matchAt zones s) (s.length + 1) 0 b tok hf
  have hble : b ≤ s.length := by omega
  apply scanFrom_eq_none
  intro q
  cases ht : matchAt zones (s.take b) q with
  | none => rfl
  | some t =>
    exfalso
    rcases matchAt_cases zones (s.take b) q t ht with ⟨hofs, -⟩ | ⟨z, hzm, hnm, -⟩
    · have hb6 : q + 6 ≤ b := by
        have hlt := offsetAt_lt (s.take b) q hofs
        rw [List.length_take] at hlt
        omega
      have hofs2 : offsetAt s q = true := by
        rw [← offsetAt_take_eq s b q hb6]
        exact hofs
      have hsome := matchAt_isSome_of_offset zones s q hofs2
      rw [hmin q (by omega) (by omega)] at hsome
      cases hsome
    · obtain ⟨hzne, hzhead⟩ := hz z hzm
      obtain ⟨hqz, hbl, hsub, htr, hend2⟩ := nameMatchAt_take s b q z hble hzne hnm
      have hz1 : 1 ≤ z.length := by
        cases z with
        | nil => exact absurd rfl hzne
        | cons c cs => simp
      have hq : q < b := by omega
      rcases Nat.lt_or_ge (q + z.length) b with hlt | hge
      · have hsome := matchAt_isSome_of_name zones s q z hzm (htr hlt)
        rw [hmin q (by omega) hq] at hsome
        cases hsome
      · have heq : q + z.length = b := by omega
        have hw : wordAt s (b - 1) = true := hend2 heq
        rcases matchAt_cases zones s b tok hmb with ⟨hofsb, -⟩ | ⟨z', hz'm, hnm', -⟩
        · have hsign : charIs s b (fun c => c = '+' || c = '-') = true := by
            unfold offsetAt at hofsb
            rw [Bool.and_eq_true, Bool.and_eq_true, Bool.and_eq_true,
              Bool.and_eq_true] at hofsb
            exact hofsb.1.1.1.2
          obtain ⟨c0, hc0, hc0p⟩ := charIs_elim s b _ hsign
          have hcw : isWordChar c0 = false := by
            simp only [Bool.or_eq_true, decide_eq_true_eq] at hc0p
            rcases hc0p with rfl | rfl <;> rfl
          have hwb : wordAt s b = false := by
            unfold wordAt
            rw [hc0]
            exact hcw
          have hbound : boundaryAt s b = true := by
            unfold boundaryAt
            rw [hwb]
            have hwbt : wordBefore s b = true := by
              cases b with
              | zero => omega
              | succ j =>
                rw [wordBefore_succ]
                simpa using hw
            rw [hwbt]
            rfl
          have hnm2 : nameMatchAt s q z = true := by
            unfold nameMatchAt
            rw [Bool.and_eq_true, Bool.and_eq_true]
            refine ⟨⟨hbl, hsub⟩, ?_⟩
            rw [heq]
            exact hbound
          have hsome := matchAt_isSome_of_name zones s q z hzm hnm2
          rw [hmin q (by omega) hq] at hsome
          cases hsome
        · obtain ⟨hz'ne, hz'head⟩ := hz z' hz'm
          unfold nameMatchAt at hnm'
          rw [Bool.and_eq_true, Bool.and_eq_true] at hnm'
          obtain ⟨⟨hbl', hsub'⟩, -⟩ := hnm'
          cases z' with
          | nil => exact absurd rfl hz'ne
          | cons c cs =>
            have hcb : charAt s b = some c := subEq_head s b c cs hsub'
            have hwb : wordAt s b = true := by
              unfold wordAt
              rw [hcb]
              simpa using hz'head
            unfold boundaryAt at hbl'
            rw [hwb] at hbl'
            have hwbf : wordBefore s b = false := by
              cases hv : wordBefore s b
              · rfl
              · rw [hv] at hbl'
                cases hbl'
            cases b with
            | zero => omega
            | succ j =>
              rw [wordBefore_succ] at hwbf
              have hwj : wordAt s j = true := by simpa using hw
              rw [hwj] at hwbf
              cases hwbf

/-! ## Claims about rescanning the remainder -/

/-- Claim C9, counterexample: an input with exactly one position where
the timezone pattern matches, for which scanning succeeds and returns a
remainder, yet scanning that remainder matches again: deleting the
matched span +05:15 from +0+05:151:30 concatenates the surrounding text
into the fresh token +01:30. -/
theorem C9_counterexample_rescan_matches :
    matchCount [] (strOf "+0+05:151:30") = 1 ∧
    search_tz env0 (strOf "+0+05:151:30") false =
      some (.fixedOffset 18900, strOf "+01:30") ∧
    (search_tz env0 (strOf "+01:30") false).isSome = true :=
  ⟨by rfl, by rfl, by rfl⟩

/-- Claim C9, amended: scanning the remainder of a successful scan a
second time yields no further match whenever the matched token extends
to the end of the input (the remainder is then the text left of the
leftmost match, where no token can match); for interior tokens, deleting
the span can concatenate the surrounding text into a fresh token, so
the idempotence is not unconditional even for single-token inputs. -/
theorem C9_rescan_none_token_at_end (env : TzEnv) (s : List Char) (b : ℕ)
    (tok : Tok) (tz : TzV) (rem : List Char)
    (hz : ∀ z ∈ env.zonesAlt, z ≠ [] ∧ isWordChar (z.headD 'A') = true)
    (hfm : findMatch env.zonesAlt s = some (b, tok))
    (hend : b + tokLen tok = s.length)
    (hs : search_tz env s false = some (tz, rem)) :
    search_tz env rem false = none := by
  have hrem : rem = s.take b := by
    have hs2 : (match findMatch env.zonesAlt s with
        | none => (none : Option (TzV × List Char))
        | some (b, tok) => (resolveTok env (tokText tok)).map
            (fun tzv => (tzv, delspan s b (b + tokLen tok)))) = some (tz, rem) := hs
    rw [hfm] at hs2
    simp only [Option.map_eq_some'] at hs2
    obtain ⟨tzv, -, heq⟩ := hs2
    injection heq with h1 h2
    rw [← h2]
    unfold delspan
    rw [hend, List.drop_length]
    simp
  rw [hrem]
  have h3 : findMatch env.zonesAlt (s.take b) = none :=
    rescan_none_of_token_at_end env.zonesAlt s b tok hz hfm hend
  unfold search_tz
  rw [h3]
  rfl

/-- Witness for the amended C9 at 12:00 +05:30 (the token ends the
input; rescanning the remainder 12:00 finds nothing). -/
theorem C9_rescan_none_token_at_end_witness :
    search_tz env0 (strOf "12:00 ") false = none :=
  C9_rescan_none_token_at_end env0 (strOf "12:00 +05:30") 6
    (.off (strOf "+05:30")) (.fixedOffset 19800) (strOf "12:00 ")
    (by intro z hz; cases hz) (by rfl) (by rfl) (by rfl)

/-! ## Claims about the resolver and evaluator -/

/-- Claim C1 (code defect): the claim says every operand-kind/operator
triple absent from the legal table fails with the unsupported-operation
ValueError naming both kinds and the operator, and never any other
outcome.  The timedelta/timedelta branch, however, applies the operator
function unconditionally, so Duration @ Duration applies the
`dt.astimezone(tz)` lambda to a timedelta and dies with an untyped
AttributeError.  Evaluating the failing input 1 day @ 2 days shows the
crash; the engine and the moment are irrelevant, since both terms
resolve as durations. -/
theorem C1_duration_at_duration_attribute_error :
    ∀ (eng : Engine) (now : ℚ),
      parse_temporal_expr eng env0 now (strOf "1 day @ 2 days") = .attrError :=
  fun _ _ => rfl

/-- Claim C3: `parse_temporal_str` tries timezone, duration, absolute
time in that fixed order; an earlier success is returned as is, and the
external engine is then never consulted (the result is independent of
it); the call fails exactly when all three strategies fail; and a
zero-accuracy engine result counts as a failure of the third
strategy. -/
theorem C3_resolution_order (env : TzEnv) (s : List Char) :
    (∀ (eng : Engine) (z : TzV), parse_timezone_str env s = some z →
        parse_temporal_str eng env s = some (.tzv z)) ∧
    (∀ (eng : Engine) (d : ℚ), parse_timezone_str env s = none →
        parse_timedelta_list s = some d →
        parse_temporal_str eng env s = some (.tdv d)) ∧
    (∀ eng1 eng2 : Engine,
        (parse_timezone_str env s).isSome = true ∨
          (parse_timedelta_list s).isSome = true →
        parse_temporal_str eng1 env s = parse_temporal_str eng2 env s) ∧
    (∀ eng : Engine, (parse_temporal_str eng env s = none ↔
        parse_timezone_str env s = none ∧ parse_timedelta_list s = none ∧
          parse_datetime_str eng env s = none)) ∧
    (∀ eng : Engine, (eng (dtInput env s) (dtHint env s)).2 = 0 →
        parse_datetime_str eng env s = none) := by
  refine ⟨?_, ?_, ?_, ?_, ?_⟩
  · intro eng z hz
    unfold parse_temporal_str
    rw [hz]
  · intro eng d hz hd
    unfold parse_temporal_str
    rw [hz, hd]
  · intro e1 e2 h
    unfold parse_temporal_str
    cases hz : parse_timezone_str env s with
    | some z => rfl
    | none =>
      cases hd : parse_timedelta_list s with
      | some d => rfl
      | none =>
        exfalso
        rcases h with h | h
        · rw [hz] at h
          cases h
        · rw [hd] at h
          cases h
  · intro eng
    unfold parse_temporal_str
    cases hz : parse_timezone_str env s with
    | some z => simp
    | none =>
      cases hd : parse_timedelta_list s with
      | some d => simp
      | none => simp [Option.map_eq_none']
  · intro eng h0
    unfold parse_datetime_str
    rw [if_pos h0]

/-- Witness for C3: with the recognize-nothing engine, 1 day resolves
as a duration (second strategy), independently of the engine. -/
theorem C3_resolution_order_witness :
    parse_temporal_str eng0 env0 (strOf "1 day") = some (.tdv 86400000000) := by
  have hd : parse_timedelta_list (strOf "1 day") = some 86400000000 := by
    have hp : parseDurFields (strOf "1 day") = some [(.days, 1)] := by rfl
    unfold parse_timedelta_list
    rw [hp]
    simp only [Option.map_some']
    congr 1
    unfold tdFromCaptures
    rw [show lastVal .years [(.days, (1 : ℚ))] = 0 from rfl,
      show lastVal .months [(.days, (1 : ℚ))] = 0 from rfl,
      show lastVal .weeks [(.days, (1 : ℚ))] = 0 from rfl,
      show lastVal .days [(.days, (1 : ℚ))] = 1 from rfl,
      show lastVal .hours [(.days, (1 : ℚ))] = 0 from rfl,
      show lastVal .minutes [(.days, (1 : ℚ))] = 0 from rfl,
      show lastVal .seconds [(.days, (1 : ℚ))] = 0 from rfl,
      show lastVal .milliseconds [(.days, (1 : ℚ))] = 0 from rfl,
      show lastVal .microseconds [(.days, (1 : ℚ))] = 0 from rfl]
    norm_num
  exact (C3_resolution_order env0 (strOf "1 day")).2.1 eng0 86400000000 (by rfl) hd

/-- Claim C7: timezone equality in the evaluator compares the zones'
UTC offsets at the current moment, not their identities: two distinct
named zones whose instantaneous offsets agree compare equal under ==. -/
theorem C7_timezone_eq_by_current_offset (env : TzEnv) (now : ℚ)
    (k1 k2 : List Char) (hne : k1 ≠ k2)
    (hoff : env.utcofs (.zoneInfo k1) now = env.utcofs (.zoneInfo k2) now) :
    applyOp env now (.tzv (.zoneInfo k1)) .eq (.tzv (.zoneInfo k2)) = .bl true := by
  show EvalOut.bl (decide (env.utcofs (.zoneInfo k1) now =
    env.utcofs (.zoneInfo k2) now)) = .bl true
  rw [hoff]
  simp

/-- Witness for C7: two distinct keys under an offset table that
assigns both the same current offset. -/
theorem C7_timezone_eq_by_current_offset_witness :
    applyOp env0 0 (.tzv (.zoneInfo (strOf "America/New_York"))) .eq
      (.tzv (.zoneInfo (strOf "Europe/London"))) = .bl true :=
  C7_timezone_eq_by_current_offset env0 0 (strOf "America/New_York")
    (strOf "Europe/London") (by decide) (by rfl)

/-! ## Claims about duration formatting -/

/-- Claim C8, counterexample: the claim says format_duration never
raises for any normalized duration under every ambient locale; under a
French locale (language code fr, no handler) the call raises
RuntimeError instead of returning a string, and likewise with the
locale unset. -/
theorem C8_counterexample_unsupported_locale_raises :
    duration_to_string (some "fr_FR") true 86400000000 =
      .error "encountered an issue with the locale" ∧
    duration_to_string none true 86400000000 =
      .error "encountered an issue with the locale" :=
  ⟨by rfl, by rfl⟩

/-- Claim C8, amended: for every duration value, the formatting call
returns a string when the ambient locale's language code is one of the
eleven supported codes, or when localization is disabled (the en path);
for any other ambient language code — including the unset locale, whose
code is empty — it raises RuntimeError. -/
theorem C8_format_duration_locale_dependent (localeName : Option String)
    (td : ℚ) (localize : Bool) :
    ((localize = false ∨ locale_lang localeName ∈ supportedLangs) →
      ∃ s, duration_to_string localeName localize td = Except.ok s) ∧
    (localize = true → locale_lang localeName ∉ supportedLangs →
      duration_to_string localeName localize td =
        .error "encountered an issue with the locale") := by
  constructor
  · intro h
    cases localize with
    | false =>
      exact ⟨duration_to_string_en td, rfl⟩
    | true =>
      rcases h with h | h
      · cases h
      · simp only [supportedLangs, List.mem_cons, List.not_mem_nil, or_false] at h
        rcases h with h | h | h | h | h | h | h | h | h | h | h <;>
          · unfold duration_to_string
            rw [if_pos rfl, h]
            exact ⟨_, rfl⟩
  · intro hl hmem
    subst hl
    unfold duration_to_string
    rw [if_pos rfl]
    rw [List.find?_eq_none.mpr ?_]
    intro p hp
    simp only [langHandlers, List.mem_cons, List.not_mem_nil, or_false] at hp
    rcases hp with rfl | rfl | rfl | rfl | rfl | rfl | rfl | rfl | rfl | rfl | rfl <;>
      · simp only [decide_eq_true_eq]
        intro heq
        apply hmem
        rw [← heq]
        simp [supportedLangs]

/-- Witness for the amended C8: an English locale formats; with
localization disabled any locale formats. -/
theorem C8_format_duration_locale_dependent_witness :
    (∃ s, duration_to_string (some "en_US") true 86400000000 = Except.ok s) ∧
    (∃ s, duration_to_string (some "fr_FR") false 43200000000 = Except.ok s) :=
  ⟨(C8_format_duration_locale_dependent (some "en_US") 86400000000 true).1
      (Or.inr (by decide)),
    (C8_format_duration_locale_dependent (some "fr_FR") 43200000000 false).1
      (Or.inl rfl)⟩
